import Mathlib

/-!
Verification of the quantum-pack compression core against its specification.

The Rust source is shallowly embedded: machine bytes (u8) and codes (u16)
become Nat, with explicit truncation written as a remainder by 256 exactly
where the source performs an integral cast; Rust BTreeMap values become
key-sorted association lists built by ordered insertion; fallible code
(indexing that can go out of bounds, Option::unwrap) returns Option.
Rust while-loops that consume a variable number of elements per step are
embedded with an explicit fuel argument that is always called with the
input length, which dominates the number of iterations because every
iteration consumes at least one element.
-/

namespace QuantumPack

/-- Lexicographic comparison of byte sequences, the Ord instance of Vec of u8
used by the source for BTreeMap keys and for the pattern sort tie-break. -/
def compareList : List Nat → List Nat → Ordering
  | [], [] => .eq
  | [], _ :: _ => .lt
  | _ :: _, [] => .gt
  | a :: as, b :: bs => (compare a b).then (compareList as bs)

/-- Lookup in an association list, modelling BTreeMap get: returns the value
stored at the first key comparing equal to the query. -/
def alookup {κ β : Type} (cmp : κ → κ → Ordering) (k : κ) : List (κ × β) → Option β
  | [] => none
  | (k0, v) :: t =>
    match cmp k k0 with
    | .eq => some v
    | _ => alookup cmp k t

/-- Ordered insert-or-increment into a key-sorted association list, modelling
the source idiom map.entry(k).or_insert(0) += 1 on a BTreeMap. -/
def abump {κ : Type} (cmp : κ → κ → Ordering) (k : κ) : List (κ × Nat) → List (κ × Nat)
  | [] => [(k, 1)]
  | (k0, v) :: t =>
    match cmp k k0 with
    | .lt => (k, 1) :: (k0, v) :: t
    | .eq => (k0, v + 1) :: t
    | .gt => (k0, v) :: abump cmp k t

/-- Ordered insert-or-replace into a key-sorted association list, modelling
BTreeMap insert. -/
def ainsert {κ β : Type} (cmp : κ → κ → Ordering) (k : κ) (v : β) :
    List (κ × β) → List (κ × β)
  | [] => [(k, v)]
  | (k0, v0) :: t =>
    match cmp k k0 with
    | .lt => (k, v) :: (k0, v0) :: t
    | .eq => (k, v) :: t
    | .gt => (k0, v0) :: ainsert cmp k v t

/-- Keys appear in strictly ascending order, the invariant of a BTreeMap dump. -/
def KeysSorted {κ β : Type} (cmp : κ → κ → Ordering) (l : List (κ × β)) : Prop :=
  l.Pairwise (fun a b => cmp a.1 b.1 = .lt)

/-- Comparator of identify_patterns: descending frequency first, ascending
lexicographic byte order second (preprocessor/mod.rs lines 112-114). -/
def patCmp (a b : List Nat × Nat) : Ordering :=
  (compare b.2 a.2).then (compareList a.1 b.1)

/-- Non-strict order induced by patCmp; sorting by it models sort_unstable_by
with that comparator (the comparator is antisymmetric, so every correct sort
produces the same list). -/
def patLe (a b : List Nat × Nat) : Prop := patCmp a b ≠ Ordering.gt

instance : DecidableRel patLe := fun a b =>
  inferInstanceAs (Decidable (patCmp a b ≠ Ordering.gt))

/-- Contiguous windows of a fixed length, modelling slice::windows. -/
def windowsList (n : Nat) (l : List Nat) : List (List Nat) :=
  (List.range (l.length + 1 - n)).map (fun i => (l.drop i).take n)

/-- Window population counted by identify_patterns: every single byte
(the explicit first loop) followed by every window of each length from 2 to
the maximum pattern length (preprocessor/mod.rs lines 98-106). -/
def embeddedAll (d : List Nat) (maxLen : Nat) : List (List Nat) :=
  d.map (fun b => [b]) ++ (List.range' 2 (maxLen - 1)).flatMap (fun n => windowsList n d)

/-- Window population as the specification words it: every contiguous byte
subsequence of each window length from 1 up to the max pattern length. -/
def specAll (d : List Nat) (maxLen : Nat) : List (List Nat) :=
  (List.range' 1 maxLen).flatMap (fun n => windowsList n d)

/-- Frequency map of identify_patterns, built by repeated BTreeMap bumps. -/
def buildFreqMap (ws : List (List Nat)) : List (List Nat × Nat) :=
  ws.foldl (fun acc w => abump compareList w acc) []

/-- Pattern tables of the Preprocessor: pattern to code, code to pattern, and
code to observed frequency (fields pattern_map, reverse_pattern_map,
code_frequency). -/
structure PatternTables where
  patternMap : List (List Nat × Nat)
  reversePatternMap : List (Nat × List Nat)
  codeFrequency : List (Nat × Nat)
  deriving DecidableEq, Repr

/-- Empty tables of Preprocessor::new. -/
def emptyTables : PatternTables := ⟨[], [], []⟩

/-- Code assignment loop of identify_patterns (lines 116-123): walks the
sorted survivor list giving out consecutive codes from next_code and filling
the three maps. -/
def assignCodes (next : Nat) : List (List Nat × Nat) → PatternTables → PatternTables
  | [], T => T
  | (p, f) :: rest, T =>
    assignCodes (next + 1) rest
      ⟨ainsert compareList p next T.patternMap,
       ainsert compare next p T.reversePatternMap,
       ainsert compare next f T.codeFrequency⟩

/-- Embedding of Preprocessor::identify_patterns on a fresh preprocessor
(next_code starts at 1): count all windows, retain frequencies above 1,
sort by the comparator, and assign codes to the first 254 survivors. -/
def identify_patterns (d : List Nat) (maxLen : Nat) : PatternTables :=
  assignCodes 1
    ((List.insertionSort patLe ((buildFreqMap (embeddedAll d maxLen)).filter
        (fun pc => 1 < pc.2))).take 254)
    emptyTables

/-- Modelled from the spec: pattern discovery as section 4.1 words it, used
as the refinement target for claim C7. Counts every contiguous subsequence
of each window length from 1 up to the max pattern length, discards those
occurring at most once, sorts by descending frequency then ascending
lexicographic order, and assigns sequential codes from 1 to at most 254
survivors, recording each frequency. -/
def identify_patterns_spec (d : List Nat) (maxLen : Nat) : PatternTables :=
  assignCodes 1
    ((List.insertionSort patLe
        (((specAll d maxLen).dedup.map (fun p => (p, (specAll d maxLen).count p))).filter
          (fun pc => 1 < pc.2))).take 254)
    emptyTables

/-- Embedding of determine_max_pattern_length: 2, 3 or 4 by the number of
distinct byte values. -/
def determine_max_pattern_length (d : List Nat) : Nat :=
  let u := d.dedup.length
  if u ≤ 16 then 2 else if u ≤ 32 then 3 else 4

/-- Match lengths tried by transform_data at one position: from
min(max_pattern_length, remaining length) down to 2. -/
def sizesDesc (maxLen remaining : Nat) : List Nat :=
  (List.range' 2 (min maxLen remaining - 1)).reverse

/-- First pattern hit over the candidate sizes, returning the code and the
matched length (the inner for-loop of transform_data). -/
def trySizes (pm : List (List Nat × Nat)) (l : List Nat) : List Nat → Option (Nat × Nat)
  | [] => none
  | s :: ss =>
    match alookup compareList (l.take s) pm with
    | some c => some (c, s)
    | none => trySizes pm l ss

/-- Embedding of encode_code: frequent single-byte codes are one byte, the
rest are the 255 escape marker followed by the code byte; the cast of the
u16 code to u8 is the remainder by 256. -/
def encode_code (code freq : Nat) : List Nat :=
  if 100 < freq then [code % 256] else [255, code % 256]

/-- Embedding of variable_length_encode: rewrite each byte that is itself a
single-byte pattern through encode_code with its recorded frequency
(defaulting to 1), pass every other byte through. -/
def variable_length_encode (T : PatternTables) (l : List Nat) : List Nat :=
  l.flatMap (fun b =>
    match alookup compareList [b] T.patternMap with
    | some code => encode_code code ((alookup compare code T.codeFrequency).getD 1)
    | none => [b])

/-- Main loop of transform_data with fuel; every iteration consumes at least
one input byte, so fuel equal to the input length suffices. On a pattern hit
the code is emitted as one byte (cast to u8) and the whole match is skipped,
otherwise the raw byte is emitted. -/
def transformCoreAux (pm : List (List Nat × Nat)) (maxLen : Nat) :
    Nat → List Nat → List Nat
  | _, [] => []
  | 0, _ :: _ => []
  | fuel + 1, b :: t =>
    match trySizes pm (b :: t) (sizesDesc maxLen (t.length + 1)) with
    | some cs => cs.1 % 256 :: transformCoreAux pm maxLen fuel ((b :: t).drop cs.2)
    | none => b :: transformCoreAux pm maxLen fuel t

/-- Embedding of transform_data: the greedy longest-match-first substitution
pass followed by variable_length_encode. -/
def transform_data (T : PatternTables) (maxLen : Nat) (d : List Nat) : List Nat :=
  variable_length_encode T (transformCoreAux T.patternMap maxLen d.length d)

/-- Fixed-size chunking with fuel, modelling slice::chunks; fuel equal to the
list length suffices for any chunk size of at least 1. -/
def chunksOfAux (n : Nat) : Nat → List Nat → List (List Nat)
  | _, [] => []
  | 0, _ :: _ => []
  | fuel + 1, l => l.take n :: chunksOfAux n fuel (l.drop n)

/-- Chunking entry point. -/
def chunksOf (n : Nat) (l : List Nat) : List (List Nat) := chunksOfAux n l.length l

/-- Embedding of parallel_transform_data with the thread count as an explicit
parameter: the input is cut into chunks of size max(len / threads, maxLen),
each chunk is transformed independently against the same read-only tables,
and the outputs are concatenated in chunk order. -/
def parallel_transform_data (T : PatternTables) (maxLen : Nat) (d : List Nat)
    (numThreads : Nat) : List Nat :=
  (chunksOf (max (d.length / numThreads) maxLen) d).flatMap (transform_data T maxLen)

/-- Embedding of reverse_transform_data. A byte equal to the 255 escape
marker consumes the following byte as a code; indexing one past the end
(escape marker in last position when reached by the scan) is the none case.
An unknown code after the marker contributes nothing; without the marker an
unknown code is emitted as a literal. -/
def reverse_transform_data (rpm : List (Nat × List Nat)) : List Nat → Option (List Nat)
  | [] => some []
  | b :: rest =>
    if b = 255 then
      match rest with
      | [] => none
      | c :: rest2 =>
        match alookup compare c rpm with
        | some pat => (reverse_transform_data rpm rest2).map (fun out => pat ++ out)
        | none => reverse_transform_data rpm rest2
    else
      match alookup compare b rpm with
      | some pat => (reverse_transform_data rpm rest).map (fun out => pat ++ out)
      | none => (reverse_transform_data rpm rest).map (fun out => b :: out)

/-- Big-endian bytes of a u16, modelling u16::to_be_bytes. -/
def beBytes2 (n : Nat) : List Nat := [n >>> 8 &&& 255, n &&& 255]

/-- Big-endian bytes of a u32, modelling u32::to_be_bytes. -/
def beBytes4 (n : Nat) : List Nat :=
  [n >>> 24 &&& 255, n >>> 16 &&& 255, n >>> 8 &&& 255, n &&& 255]

/-- Embedding of Preprocessor::serialize_dictionary: for each code in
ascending order, two big-endian code bytes, the pattern length as one byte,
then the pattern bytes. -/
def serialize_dictionary (T : PatternTables) : List Nat :=
  T.reversePatternMap.flatMap (fun cp => beBytes2 cp.1 ++ [cp.2.length % 256] ++ cp.2)

/-- Parsing loop of deserialize_dictionary with fuel (each record consumes at
least three bytes, so fuel equal to the byte count suffices); malformed input
that would make the source index or slice out of bounds is the none case. -/
def ddAux : Nat → List (List Nat × Nat) → List (Nat × List Nat) → List Nat →
    Option (List (List Nat × Nat) × List (Nat × List Nat))
  | _, pm, rpm, [] => some (pm, rpm)
  | 0, _, _, _ :: _ => none
  | fuel + 1, pm, rpm, c1 :: rest1 =>
    match rest1 with
    | [] => none
    | c2 :: rest2 =>
      match rest2 with
      | [] => none
      | len :: rest3 =>
        if len ≤ rest3.length then
          ddAux fuel (ainsert compareList (rest3.take len) (c1 <<< 8 ||| c2) pm)
            (ainsert compare (c1 <<< 8 ||| c2) (rest3.take len) rpm) (rest3.drop len)
        else none

/-- Embedding of Preprocessor::deserialize_dictionary. -/
def deserialize_dictionary (s : List Nat) :
    Option (List (List Nat × Nat) × List (Nat × List Nat)) :=
  ddAux s.length [] [] s

end QuantumPack

namespace QuantumPack

/-- Modelled from the spec: the AdaptiveDictionary that compress uses (field
frequencies, method update, accessor get_frequencies) is absent from the
sources; the file src/adaptive_dictionary/mod.rs defines an incompatible
struct (a windowed map with a threshold and a different constructor) that the
callers in compression/mod.rs and the tests cannot be using. Following
section 3 of the spec, FrequencyTable maps each byte value to its occurrence
count over the buffer. -/
def adaptive_dictionary_update (data : List Nat) : List (Nat × Nat) :=
  data.foldl (fun m b => abump compare b m) []

/-- Embedding of serialize_frequency_table: for every byte with positive
count in ascending byte order, the byte followed by its big-endian u32 count. -/
def serialize_frequency_table (dict : List (Nat × Nat)) : List Nat :=
  dict.flatMap (fun bf => if 0 < bf.2 then bf.1 :: beBytes4 bf.2 else [])

/-- Chunk loop of deserialize_frequency_table: exact chunks of five bytes,
any shorter remainder discarded, each inserted into the map in order. -/
def dftAux (m : List (Nat × Nat)) : List Nat → List (Nat × Nat)
  | b0 :: b1 :: b2 :: b3 :: b4 :: rest =>
    dftAux (ainsert compare b0 (b1 <<< 24 ||| b2 <<< 16 ||| b3 <<< 8 ||| b4) m) rest
  | _ => m

/-- Embedding of deserialize_frequency_table. -/
def deserialize_frequency_table (s : List Nat) : List (Nat × Nat) := dftAux [] s

/-- Huffman tree node; nil models an absent child (Option::None around a
boxed HuffmanNode in the source). -/
inductive HuffmanNode
  | nil : HuffmanNode
  | node (frequency : Nat) (value : Nat) (left right : HuffmanNode) : HuffmanNode
  deriving DecidableEq, Repr

/-- Left child accessor. -/
def HuffmanNode.left : HuffmanNode → HuffmanNode
  | .nil => .nil
  | .node _ _ l _ => l

/-- Right child accessor. -/
def HuffmanNode.right : HuffmanNode → HuffmanNode
  | .nil => .nil
  | .node _ _ _ r => r

/-- Heap element HuffmanTuple. -/
structure HuffmanTuple where
  frequency : Nat
  value : Nat
  left : HuffmanNode
  right : HuffmanNode
  deriving DecidableEq, Repr

/-- Embedding of the Ord instance of HuffmanTuple (huffman/mod.rs lines
34-38): other.frequency compared against self.frequency, and nothing else. -/
def HuffmanTuple.cmp (a b : HuffmanTuple) : Ordering := compare b.frequency a.frequency

/-- Modelled from the spec's words for claim C2: a min-priority ordering
ascending by the pair of weight and discriminator. -/
def spec_pair_cmp (a b : HuffmanTuple) : Ordering :=
  (compare a.frequency b.frequency).then (compare a.value b.value)

/-- Merged node pushed by the tree construction loop: summed weight, the
minimum of the children's discriminators, and both children attached. -/
def mergeTuples (l r : HuffmanTuple) : HuffmanTuple :=
  ⟨l.frequency + r.frequency, min l.value r.value,
   .node l.frequency l.value l.left l.right,
   .node r.frequency r.value r.left r.right⟩

/-- Pop of the binary max-heap under HuffmanTuple.cmp (which reverses the
frequency comparison, so the popped element has minimal frequency). Rust
leaves the choice among equal elements to the heap internals; this model
deterministically keeps the earliest maximal element. -/
def extractMax : List HuffmanTuple → Option (HuffmanTuple × List HuffmanTuple)
  | [] => none
  | x :: xs =>
    match extractMax xs with
    | none => some (x, [])
    | some (m, rest) =>
      if HuffmanTuple.cmp x m = .lt then some (m, x :: rest) else some (x, xs)

/-- Merging loop of the tree construction with fuel: each round pops two
nodes and pushes one, so fuel equal to the initial heap size suffices. -/
def buildLoop : Nat → List HuffmanTuple → List HuffmanTuple
  | 0, heap => heap
  | fuel + 1, heap =>
    if heap.length ≤ 1 then heap
    else
      match extractMax heap with
      | none => heap
      | some (left, rest1) =>
        match extractMax rest1 with
        | none => heap
        | some (right, rest2) => buildLoop fuel (mergeTuples left right :: rest2)

/-- Embedding of build_huffman_tree_with_dictionary: push every dictionary
entry, special-case a single unique byte as one leaf, otherwise merge until
one node remains; an empty dictionary yields none. -/
def build_huffman_tree_with_dictionary (dict : List (Nat × Nat)) : Option HuffmanNode :=
  let heap := dict.map (fun bv => HuffmanTuple.mk bv.2 bv.1 .nil .nil)
  if heap.length = 1 then
    match heap with
    | [t] => some (.node t.frequency t.value .nil .nil)
    | _ => none
  else
    match extractMax (buildLoop heap.length heap) with
    | none => none
    | some (t, _) => some (.node t.frequency t.value t.left t.right)

/-- Embedding of generate_huffman_codes: a childless node maps its value to
the accumulated bit path, otherwise descend left appending bit 0 and right
appending bit 1. -/
def generate_huffman_codes (t : HuffmanNode) (pre : List Nat)
    (codes : List (Nat × List Nat)) : List (Nat × List Nat) :=
  match t with
  | .nil => codes
  | .node _ v l r =>
    if l = .nil ∧ r = .nil then ainsert compare v pre codes
    else
      let c1 := match l with
        | .nil => codes
        | .node fl vl ll rl => generate_huffman_codes (.node fl vl ll rl) (pre ++ [0]) codes
      match r with
      | .nil => c1
      | .node fr vr lr rr => generate_huffman_codes (.node fr vr lr rr) (pre ++ [1]) c1

/-- Bit sequence accumulated by huffman_encode: each input byte contributes
its code when the map has one and nothing otherwise. -/
def code_bits (codes : List (Nat × List Nat)) (data : List Nat) : List Nat :=
  data.flatMap (fun b =>
    match alookup compare b codes with
    | some c => c
    | none => [])

/-- Packing of one full 8-bit group, most significant bit first, with the u8
shift wrapping modulo 256 as in the source fold. -/
def packByte (bits : List Nat) : Nat :=
  bits.foldl (fun acc bit => (acc <<< 1) % 256 ||| bit) 0

/-- Full-group packing loop of huffman_encode: consume 8 bits at a time
while at least 8 remain. -/
def packFull : List Nat → List Nat
  | b0 :: b1 :: b2 :: b3 :: b4 :: b5 :: b6 :: b7 :: rest =>
    packByte [b0, b1, b2, b3, b4, b5, b6, b7] :: packFull rest
  | _ => []

/-- Bits left over after the full-group loop (fewer than 8). -/
def leftover : List Nat → List Nat
  | _ :: _ :: _ :: _ :: _ :: _ :: _ :: _ :: rest => leftover rest
  | l => l

/-- Final partial byte of huffman_encode: fold the remaining bits then shift
them up to the most significant positions, wrapping as u8. -/
def lastByteVal (rem : List Nat) : Nat := packByte rem <<< (8 - rem.length) % 256

/-- Trailer value as a function of the bit-sequence length: 0 for an empty
sequence, 8 for a nonzero multiple of 8, otherwise the remainder by 8. -/
def trailer_value (L : Nat) : Nat := if L = 0 then 0 else if L % 8 = 0 then 8 else L % 8

/-- Embedding of huffman_encode: concatenate the codes, pack full groups,
append the shifted partial group when one exists, then append the trailer
byte (8 when the bit count is a nonzero multiple of 8, else the remainder,
which is 0 for an empty bit sequence). -/
def huffman_encode (data : List Nat) (codes : List (Nat × List Nat)) : List Nat :=
  let bits := code_bits codes data
  let withLast :=
    if leftover bits = [] then packFull bits
    else packFull bits ++ [lastByteVal (leftover bits)]
  if bits.length % 8 = 0 ∧ bits ≠ [] then withLast ++ [8]
  else withLast ++ [bits.length % 8]

/-- Meaningful bits of one byte, most significant first, as read by
huffman_decode. -/
def byteBits (b : Nat) (n : Nat) : List Nat :=
  (List.range n).map (fun i => b >>> (7 - i) &&& 1)

/-- Meaningful bits of the payload body: every byte contributes 8 bits
except the final body byte (the second-to-last payload byte), which
contributes as many bits as the trailer says. -/
def decode_bits (body : List Nat) (trailer : Nat) : List Nat :=
  match body with
  | [] => []
  | [b] => byteBits b trailer
  | b :: rest => byteBits b 8 ++ decode_bits rest trailer

/-- Tree walk of huffman_decode: follow the left child on bit 0 and the
right child on bit 1 (an absent child is the unwrap panic, hence none),
emit the value and restart at the root on reaching a childless node. -/
def decodeRun (root : HuffmanNode) : HuffmanNode → List Nat → Option (List Nat)
  | _, [] => some []
  | cur, bit :: bits =>
    match (if bit = 0 then cur.left else cur.right) with
    | .nil => none
    | .node f v l r =>
      if l = .nil ∧ r = .nil then (decodeRun root root bits).map (fun out => v :: out)
      else decodeRun root (.node f v l r) bits

/-- Embedding of huffman_decode: empty input decodes to nothing; otherwise
the last byte is the trailer and the remaining bytes are walked bit by bit. -/
def huffman_decode (encoded : List Nat) (tree : HuffmanNode) : Option (List Nat) :=
  match encoded with
  | [] => some []
  | _ :: _ => decodeRun tree tree (decode_bits encoded.dropLast (encoded.getLastD 0))

/-- Embedding of compress with the worker count of parallel_transform_data
as an explicit parameter: discover patterns, transform, count frequencies,
build the tree (none models the unwrap panic on an empty tree), derive
codes, bit-pack, and serialize both tables. -/
def compress (numThreads : Nat) (data : List Nat) :
    Option (List Nat × List Nat × List Nat) :=
  let maxLen := determine_max_pattern_length data
  let tables := identify_patterns data maxLen
  let processed := parallel_transform_data tables maxLen data numThreads
  let dict := adaptive_dictionary_update processed
  match build_huffman_tree_with_dictionary dict with
  | none => none
  | some tree =>
    some (huffman_encode processed (generate_huffman_codes tree [] []),
      serialize_frequency_table dict, serialize_dictionary tables)

/-- Embedding of the decompress path on the three compress outputs, with the
Huffman tree rebuilt from the deserialized frequency table as in
decompress_file: decode the payload, deserialize the pattern table, and
reverse the preprocessor transform. -/
def decompress_pipeline (encoded ft sd : List Nat) : Option (List Nat) :=
  match build_huffman_tree_with_dictionary (deserialize_frequency_table ft) with
  | none => none
  | some tree =>
    match huffman_decode encoded tree with
    | none => none
    | some decoded =>
      match deserialize_dictionary sd with
      | none => none
      | some maps => reverse_transform_data maps.2 decoded

/-- Whole round trip of claim C1: compress, then decompress from the three
returned buffers. -/
def round_trip (numThreads : Nat) (data : List Nat) : Option (List Nat) :=
  match compress numThreads data with
  | none => none
  | some out => decompress_pipeline out.1 out.2.1 out.2.2

end QuantumPack

namespace QuantumPack

/-- Claim C10 counterexample: an input whose last byte is the 255 escape
marker need not make reverse_transform_data read past the end; on the
two-byte input 255, 255 the first byte is the marker, the second is consumed
as a code, and the scan ends cleanly with some output instead of the
out-of-bounds none. -/
theorem claim_c10_counterexample :
    reverse_transform_data [] [255, 255] = some [] ∧
      reverse_transform_data [] [255, 255] ≠ none := by
  constructor
  · rfl
  · intro h
    simp [reverse_transform_data, alookup] at h

/-- Claim C10 as amended: when the scan reaches the final byte and it is the
255 escape marker the function indexes one past the end of the buffer (none,
for every reverse map); and whenever the byte following a consumed marker is
not a key of the reverse pattern map, the marker-code pair contributes no
output bytes and scanning resumes after the pair. -/
theorem claim_c10_amended :
    (∀ rpm : List (Nat × List Nat), reverse_transform_data rpm [255] = none) ∧
      (∀ (rpm : List (Nat × List Nat)) (b : Nat) (rest : List Nat),
        alookup compare b rpm = none →
          reverse_transform_data rpm (255 :: b :: rest) = reverse_transform_data rpm rest) := by
  constructor
  · intro rpm
    rfl
  · intro rpm b rest h
    simp [reverse_transform_data, h]

/-- Claim C10 witness: the amended theorem applied to the empty reverse map,
the unknown code 7 and the remaining input consisting of the byte 3. -/
theorem claim_c10_witness :
    alookup compare 7 ([] : List (Nat × List Nat)) = none ∧
      reverse_transform_data [] [255, 7, 3] = reverse_transform_data [] [3] :=
  ⟨rfl, claim_c10_amended.2 [] 7 [3] rfl⟩

end QuantumPack

namespace QuantumPack

/-- Claim C4: compress on the empty buffer does not succeed; the frequency
table is empty, build_huffman_tree_with_dictionary returns no tree, and the
unwrap in compress panics (the none case), for every worker count. Moreover
even huffman_encode on empty input emits a nonempty payload (the lone
trailer byte), contradicting the empty-payload part of the claim. -/
theorem claim_c4_empty_compress_bug (N : Nat) :
    compress N [] = none ∧ huffman_encode [] [] ≠ [] := by
  exact ⟨rfl, by decide⟩

/-- Claim C3: the reverse pass does not invert the forward pass on the
three-byte buffer 97, 97, 1. The pattern table built from it assigns code 1
to the single-byte pattern 97; the transformed stream ends with the literal
byte 1, which reverse_transform_data resolves as code 1 and expands to 97,
yielding 97, 97, 97 instead of the original buffer. -/
theorem claim_c3_reverse_bug :
    reverse_transform_data
        (identify_patterns [97, 97, 1] (determine_max_pattern_length [97, 97, 1])).reversePatternMap
        (transform_data (identify_patterns [97, 97, 1] (determine_max_pattern_length [97, 97, 1]))
          (determine_max_pattern_length [97, 97, 1]) [97, 97, 1])
      = some [97, 97, 97] ∧ [97, 97, 97] ≠ [97, 97, 1] := by
  decide

/-- Claim C1: the round trip fails on the one-byte buffer 97, for every
worker count. The preprocessed stream has a single distinct byte, the
Huffman tree is one leaf whose code is the empty bit sequence, the payload
is the lone trailer byte 0, and decoding it yields the empty buffer. -/
theorem claim_c1_roundtrip_bug (N : Nat) :
    round_trip N [97] = some [] ∧ some ([] : List Nat) ≠ some [97] := by
  have h1 : ([97] : List Nat).length / N ≤ 1 := by
    simpa using Nat.div_le_self 1 N
  have hchunk : max (([97] : List Nat).length / N) (determine_max_pattern_length [97]) = 2 := by
    have hd : determine_max_pattern_length [97] = 2 := by decide
    rw [hd]
    omega
  have hpar : parallel_transform_data (identify_patterns [97] (determine_max_pattern_length [97]))
      (determine_max_pattern_length [97]) [97] N
      = parallel_transform_data (identify_patterns [97] (determine_max_pattern_length [97]))
        (determine_max_pattern_length [97]) [97] 1 := by
    unfold parallel_transform_data
    rw [hchunk]
    decide
  have hc : compress N [97] = compress 1 [97] := by
    simp only [compress]
    rw [hpar]
  constructor
  · unfold round_trip
    rw [hc]
    decide
  · decide

/-- Claim C5 counterexample: on empty input (or any input whose bytes all
lack codes) the concatenated bit sequence is empty and huffman_encode
appends the trailer byte 0, which lies outside the claimed range 1 to 8. -/
theorem claim_c5_counterexample :
    huffman_encode [] [] = [0] ∧ ¬ 1 ≤ (huffman_encode [] []).getLastD 0 := by
  decide

/-- Claim C2 counterexample: the heap ordering of HuffmanTuple compares two
equal-weight tuples with distinct discriminators (values 5 and 3) as equal,
while an ordering ascending by the pair of weight and discriminator must
order them strictly; the source comparator ignores the discriminator. -/
theorem claim_c2_counterexample :
    HuffmanTuple.cmp ⟨1, 5, .nil, .nil⟩ ⟨1, 3, .nil, .nil⟩ = Ordering.eq ∧
      spec_pair_cmp ⟨1, 5, .nil, .nil⟩ ⟨1, 3, .nil, .nil⟩ = Ordering.gt := by
  decide

/-- Claim C2 as amended: the priority queue is ordered by weight alone; the
comparator declares two tuples equal exactly when their weights are equal
and is insensitive to the discriminator and children, so weight ties are
broken by the heap internals rather than the discriminator; a merged node
still carries the minimum of its children's discriminators and the sum of
their weights, and the embedded construction is a deterministic function of
the frequency table. -/
theorem claim_c2_amended :
    (∀ a b : HuffmanTuple, HuffmanTuple.cmp a b = Ordering.eq ↔ a.frequency = b.frequency) ∧
      (∀ a b : HuffmanTuple,
        HuffmanTuple.cmp a b
          = HuffmanTuple.cmp ⟨a.frequency, 0, .nil, .nil⟩ ⟨b.frequency, 0, .nil, .nil⟩) ∧
      (∀ l r : HuffmanTuple, (mergeTuples l r).value = min l.value r.value ∧
        (mergeTuples l r).frequency = l.frequency + r.frequency) := by
  refine ⟨fun a b => ?_, fun a b => rfl, fun l r => ⟨rfl, rfl⟩⟩
  constructor
  · intro h
    exact (Nat.compare_eq_eq.1 h).symm
  · intro h
    exact Nat.compare_eq_eq.2 h.symm

end QuantumPack

namespace QuantumPack

theorem thenEqEq {a b : Ordering} : a.then b = .eq ↔ a = .eq ∧ b = .eq := by
  cases a <;> simp [Ordering.then]

theorem thenEqLt {a b : Ordering} : a.then b = .lt ↔ a = .lt ∨ (a = .eq ∧ b = .lt) := by
  cases a <;> simp [Ordering.then]

theorem thenSwap {a b : Ordering} : (a.then b).swap = a.swap.then b.swap := by
  cases a <;> rfl

theorem notGtIff {o : Ordering} : o ≠ .gt ↔ o = .lt ∨ o = .eq := by
  cases o <;> simp

theorem compareList_eq_iff : ∀ a b : List Nat, compareList a b = .eq ↔ a = b
  | [], [] => by simp [compareList]
  | [], _ :: _ => by simp [compareList]
  | _ :: _, [] => by simp [compareList]
  | a :: as, b :: bs => by
    simp [compareList, thenEqEq, Nat.compare_eq_eq, compareList_eq_iff as bs]

theorem compareList_swap : ∀ a b : List Nat, (compareList a b).swap = compareList b a
  | [], [] => rfl
  | [], _ :: _ => rfl
  | _ :: _, [] => rfl
  | a :: as, b :: bs => by
    show ((compare a b).then (compareList as bs)).swap = (compare b a).then (compareList bs as)
    rw [thenSwap, Nat.compare_swap, compareList_swap as bs]

theorem compareList_lt_trans : ∀ a b c : List Nat,
    compareList a b = .lt → compareList b c = .lt → compareList a c = .lt
  | [], [], _, h1, _ => by simp [compareList] at h1
  | [], _ :: _, [], _, h2 => by simp [compareList] at h2
  | [], _ :: _, _ :: _, _, _ => by simp [compareList]
  | _ :: _, [], _, h1, _ => by simp [compareList] at h1
  | _ :: _, _ :: _, [], _, h2 => by simp [compareList] at h2
  | x :: xs, y :: ys, z :: zs, h1, h2 => by
    rw [compareList, thenEqLt] at h1 h2 ⊢
    rcases h1 with h1 | ⟨h1e, h1t⟩
    · rcases h2 with h2 | ⟨h2e, h2t⟩
      · exact Or.inl (Nat.compare_eq_lt.2
          (Nat.lt_trans (Nat.compare_eq_lt.1 h1) (Nat.compare_eq_lt.1 h2)))
      · rw [← Nat.compare_eq_eq.1 h2e]
        exact Or.inl h1
    · rw [Nat.compare_eq_eq.1 h1e]
      rcases h2 with h2 | ⟨h2e, h2t⟩
      · exact Or.inl h2
      · exact Or.inr ⟨h2e, compareList_lt_trans xs ys zs h1t h2t⟩

theorem compareList_gt_lt {a b : List Nat} (h : compareList a b = .gt) :
    compareList b a = .lt := by
  rw [← compareList_swap a b, h]
  rfl

theorem patCmp_eq_iff {a b : List Nat × Nat} : patCmp a b = .eq ↔ a = b := by
  rw [patCmp, thenEqEq, Nat.compare_eq_eq, compareList_eq_iff, Prod.ext_iff]
  constructor
  · exact fun h => ⟨h.2, h.1.symm⟩
  · exact fun h => ⟨h.2.symm, h.1⟩

theorem patCmp_swap (a b : List Nat × Nat) : patCmp a b = (patCmp b a).swap := by
  rw [patCmp, patCmp, thenSwap, Nat.compare_swap, compareList_swap]

theorem patCmp_lt_iff {a b : List Nat × Nat} :
    patCmp a b = .lt ↔ b.2 < a.2 ∨ (b.2 = a.2 ∧ compareList a.1 b.1 = .lt) := by
  rw [patCmp, thenEqLt, Nat.compare_eq_lt, Nat.compare_eq_eq]

theorem patLe_total : ∀ a b : List Nat × Nat, patLe a b ∨ patLe b a := by
  intro a b
  by_cases h : patCmp a b = .gt
  · right
    rw [patLe, patCmp_swap, h]
    simp [Ordering.swap]
  · exact Or.inl h

theorem patLe_trans : ∀ a b c : List Nat × Nat, patLe a b → patLe b c → patLe a c := by
  intro a b c hab hbc
  rw [patLe, notGtIff] at hab hbc ⊢
  rcases hab with hab | hab
  · rcases hbc with hbc | hbc
    · rw [patCmp_lt_iff] at hab hbc
      refine Or.inl (patCmp_lt_iff.2 ?_)
      rcases hab with h1 | ⟨h1e, h1l⟩
      · rcases hbc with h2 | ⟨h2e, h2l⟩
        · exact Or.inl (Nat.lt_trans h2 h1)
        · exact Or.inl (h2e ▸ h1)
      · rcases hbc with h2 | ⟨h2e, h2l⟩
        · exact Or.inl (h1e ▸ h2)
        · exact Or.inr ⟨h2e.trans h1e, compareList_lt_trans _ _ _ h1l h2l⟩
    · rw [patCmp_eq_iff] at hbc
      exact Or.inl (hbc ▸ hab)
  · rw [patCmp_eq_iff] at hab
    rw [hab]
    exact hbc

theorem patLe_antisymm : ∀ a b : List Nat × Nat, patLe a b → patLe b a → a = b := by
  intro a b hab hba
  rw [patLe] at hab hba
  rcases notGtIff.1 hba with h | h
  · exfalso
    apply hab
    rw [patCmp_swap, h]
    rfl
  · exact (patCmp_eq_iff.1 h).symm

end QuantumPack


namespace QuantumPack

theorem alookup_cons {κ β : Type} (cmp : κ → κ → Ordering) (k k0 : κ) (v : β)
    (t : List (κ × β)) :
    alookup cmp k ((k0, v) :: t)
      = if cmp k k0 = .eq then some v else alookup cmp k t := by
  cases h : cmp k k0 <;> simp [alookup, h]

theorem alookup_eq_none_iff {κ β : Type} {cmp : κ → κ → Ordering}
    (hEq : ∀ a b : κ, cmp a b = .eq ↔ a = b) (k : κ) :
    ∀ l : List (κ × β), alookup cmp k l = none ↔ k ∉ l.map Prod.fst := by
  intro l
  induction l with
  | nil => simp [alookup]
  | cons hd t ih =>
    rw [alookup_cons]
    by_cases hc : cmp k hd.1 = .eq
    · have hk : k = hd.1 := (hEq k hd.1).1 hc
      subst hk
      simp [hc]
    · have hne : k ≠ hd.1 := fun h => hc ((hEq k hd.1).2 h)
      simp [hc, ih, hne]

theorem abump_keys {κ : Type} (cmp : κ → κ → Ordering) (k : κ) :
    ∀ (l : List (κ × Nat)) (x : κ), x ∈ (abump cmp k l).map Prod.fst →
      x ∈ l.map Prod.fst ∨ x = k := by
  intro l
  induction l with
  | nil => simp [abump]
  | cons hd t ih =>
    intro x hx
    rcases hd with ⟨k0, v⟩
    cases hc : cmp k k0 <;> rw [abump, hc] at hx <;>
      simp only [List.map_cons, List.mem_cons] at hx ⊢
    · tauto
    · tauto
    · rcases hx with hx | hx
      · exact Or.inl (Or.inl hx)
      · rcases ih x hx with h | h
        · exact Or.inl (Or.inr h)
        · exact Or.inr h

end QuantumPack

namespace QuantumPack

theorem abump_sorted {κ : Type} {cmp : κ → κ → Ordering}
    (hTrans : ∀ a b c : κ, cmp a b = .lt → cmp b c = .lt → cmp a c = .lt)
    (hGtLt : ∀ a b : κ, cmp a b = .gt → cmp b a = .lt)
    (k : κ) : ∀ {l : List (κ × Nat)}, KeysSorted cmp l → KeysSorted cmp (abump cmp k l) := by
  intro l
  induction l with
  | nil => intro _; simp [abump, KeysSorted]
  | cons hd t ih =>
    intro hs
    rcases hd with ⟨k0, v⟩
    rw [KeysSorted, List.pairwise_cons] at hs
    cases hc : cmp k k0 <;> rw [abump, hc]
    · refine List.Pairwise.cons ?_ (List.Pairwise.cons hs.1 hs.2)
      intro b hb
      rcases List.mem_cons.1 hb with hb | hb
      · rw [hb]
        exact hc
      · exact hTrans _ _ _ hc (hs.1 _ hb)
    · exact List.Pairwise.cons hs.1 hs.2
    · refine List.Pairwise.cons ?_ (ih hs.2)
      intro b hb
      rcases abump_keys cmp k t b.1 (List.mem_map_of_mem Prod.fst hb) with h | h
      · rcases List.mem_map.1 h with ⟨p, hp, hpe⟩
        exact hpe ▸ hs.1 p hp
      · exact h ▸ hGtLt _ _ hc

theorem abump_alookup_self {κ : Type} {cmp : κ → κ → Ordering}
    (hEq : ∀ a b : κ, cmp a b = .eq ↔ a = b)
    (hTrans : ∀ a b c : κ, cmp a b = .lt → cmp b c = .lt → cmp a c = .lt)
    (k : κ) : ∀ {l : List (κ × Nat)}, KeysSorted cmp l →
      alookup cmp k (abump cmp k l) = some ((alookup cmp k l).getD 0 + 1) := by
  intro l
  induction l with
  | nil =>
    intro _
    rw [show abump cmp k ([] : List (κ × Nat)) = [(k, 1)] from rfl, alookup_cons,
      if_pos ((hEq k k).2 rfl)]
    rfl
  | cons hd t ih =>
    intro hs
    rcases hd with ⟨k0, v⟩
    rw [KeysSorted, List.pairwise_cons] at hs
    cases hc : cmp k k0 <;> rw [abump, hc]
    · have hnone : alookup cmp k ((k0, v) :: t) = none := by
        rw [alookup_eq_none_iff hEq]
        intro hmem
        rcases List.mem_map.1 hmem with ⟨p, hp, hpe⟩
        rcases List.mem_cons.1 hp with hp | hp
        · rw [← hpe, hp] at hc
          rw [(hEq k0 k0).2 rfl] at hc
          simp at hc
        · have hlt : cmp k p.1 = .lt := hTrans _ _ _ hc (hs.1 p hp)
          rw [hpe, (hEq k k).2 rfl] at hlt
          simp at hlt
      rw [alookup_cons, if_pos ((hEq k k).2 rfl), hnone]
      rfl
    · have hk : k = k0 := (hEq k k0).1 hc
      rw [alookup_cons, if_pos hc, alookup_cons, if_pos hc]
      rfl
    · have hne : cmp k k0 ≠ .eq := by
        rw [hc]
        simp
      rw [alookup_cons, if_neg hne, alookup_cons, if_neg hne, ih hs.2]

theorem abump_alookup_ne {κ : Type} {cmp : κ → κ → Ordering}
    (hEq : ∀ a b : κ, cmp a b = .eq ↔ a = b)
    {k k' : κ} (hne : k' ≠ k) :
    ∀ l : List (κ × Nat), alookup cmp k' (abump cmp k l) = alookup cmp k' l := by
  have hnee : cmp k' k ≠ .eq := fun h => hne ((hEq k' k).1 h)
  intro l
  induction l with
  | nil =>
    rw [show abump cmp k ([] : List (κ × Nat)) = [(k, 1)] from rfl, alookup_cons,
      if_neg hnee]
  | cons hd t ih =>
    rcases hd with ⟨k0, v⟩
    cases hc : cmp k k0 <;> rw [abump, hc]
    · rw [alookup_cons, if_neg hnee]
    · have hk : k = k0 := (hEq k k0).1 hc
      have h2 : cmp k' k0 ≠ .eq := hk ▸ hnee
      rw [alookup_cons, if_neg h2, alookup_cons, if_neg h2]
    · by_cases he : cmp k' k0 = .eq
      · rw [alookup_cons, if_pos he, alookup_cons, if_pos he]
      · rw [alookup_cons, if_neg he, alookup_cons, if_neg he, ih]

theorem sorted_mem_iff_alookup {κ β : Type} {cmp : κ → κ → Ordering}
    (hEq : ∀ a b : κ, cmp a b = .eq ↔ a = b) (p : κ) (c : β) :
    ∀ {l : List (κ × β)}, KeysSorted cmp l → ((p, c) ∈ l ↔ alookup cmp p l = some c) := by
  intro l
  induction l with
  | nil => intro _; simp [alookup]
  | cons hd t ih =>
    intro hs
    rcases hd with ⟨k0, v⟩
    rw [KeysSorted, List.pairwise_cons] at hs
    rw [alookup_cons]
    by_cases h : cmp p k0 = .eq
    · have hp : p = k0 := (hEq p k0).1 h
      subst hp
      have hnot : (p, c) ∉ t := by
        intro hmem
        have hh := hs.1 _ hmem
        rw [(hEq p p).2 rfl] at hh
        simp at hh
      rw [if_pos h, List.mem_cons]
      constructor
      · rintro (he | hmem)
        · have hcv : c = v := congrArg Prod.snd he
          rw [hcv]
        · exact absurd hmem hnot
      · intro he
        exact Or.inl (by rw [Option.some.inj he])
    · have hne : p ≠ k0 := fun he => h ((hEq p k0).2 he)
      rw [if_neg h, ← ih hs.2, List.mem_cons]
      have hfalse : ¬((p, c) = (k0, v)) := fun he => hne (congrArg Prod.fst he)
      simp [hfalse]

theorem sorted_nodup {κ β : Type} {cmp : κ → κ → Ordering}
    (hEq : ∀ a b : κ, cmp a b = .eq ↔ a = b) :
    ∀ {l : List (κ × β)}, KeysSorted cmp l → l.Nodup := by
  intro l hs
  refine hs.imp ?_
  intro a b hab he
  rw [he, (hEq b.1 b.1).2 rfl] at hab
  simp at hab

theorem ainsert_mem {κ β : Type} (cmp : κ → κ → Ordering) (k : κ) (v : β) :
    ∀ (l : List (κ × β)) (q : κ) (w : β),
      (q, w) ∈ ainsert cmp k v l → (q, w) ∈ l ∨ (q = k ∧ w = v) := by
  intro l
  induction l with
  | nil =>
    intro q w hq
    rw [show ainsert cmp k v ([] : List (κ × β)) = [(k, v)] from rfl] at hq
    rcases List.mem_singleton.1 hq with he
    exact Or.inr ⟨congrArg Prod.fst he, congrArg Prod.snd he⟩
  | cons hd t ih =>
    intro q w hq
    rcases hd with ⟨k0, v0⟩
    cases hc : cmp k k0 <;> rw [ainsert, hc] at hq
    · rcases List.mem_cons.1 hq with he | hq
      · exact Or.inr ⟨congrArg Prod.fst he, congrArg Prod.snd he⟩
      · exact Or.inl hq
    · rcases List.mem_cons.1 hq with he | hq
      · exact Or.inr ⟨congrArg Prod.fst he, congrArg Prod.snd he⟩
      · exact Or.inl (List.mem_cons.2 (Or.inr hq))
    · rcases List.mem_cons.1 hq with he | hq
      · exact Or.inl (List.mem_cons.2 (Or.inl he))
      · rcases ih q w hq with h | h
        · exact Or.inl (List.mem_cons.2 (Or.inr h))
        · exact Or.inr h

end QuantumPack

namespace QuantumPack

theorem natCmpEq : ∀ a b : Nat, compare a b = .eq ↔ a = b := fun _ _ => Nat.compare_eq_eq

theorem natCmpLtTrans : ∀ a b c : Nat, compare a b = .lt → compare b c = .lt →
    compare a c = .lt := fun _ _ _ h1 h2 =>
  Nat.compare_eq_lt.2 (Nat.lt_trans (Nat.compare_eq_lt.1 h1) (Nat.compare_eq_lt.1 h2))

theorem natCmpGtLt : ∀ a b : Nat, compare a b = .gt → compare b a = .lt := fun _ _ h =>
  Nat.compare_eq_lt.2 (Nat.compare_eq_gt.1 h)

theorem clEq : ∀ a b : List Nat, compareList a b = .eq ↔ a = b := compareList_eq_iff

theorem clGtLt : ∀ a b : List Nat, compareList a b = .gt → compareList b a = .lt :=
  fun _ _ h => compareList_gt_lt h

theorem foldl_abump_sorted {κ : Type} {cmp : κ → κ → Ordering}
    (hTrans : ∀ a b c : κ, cmp a b = .lt → cmp b c = .lt → cmp a c = .lt)
    (hGtLt : ∀ a b : κ, cmp a b = .gt → cmp b a = .lt) :
    ∀ (ws : List κ) (init : List (κ × Nat)), KeysSorted cmp init →
      KeysSorted cmp (ws.foldl (fun acc w => abump cmp w acc) init) := by
  intro ws
  induction ws with
  | nil => intro init h; exact h
  | cons w ws ih =>
    intro init h
    exact ih _ (abump_sorted hTrans hGtLt w h)

theorem foldl_abump_getD {κ : Type} [BEq κ] [LawfulBEq κ] {cmp : κ → κ → Ordering}
    (hEq : ∀ a b : κ, cmp a b = .eq ↔ a = b)
    (hTrans : ∀ a b c : κ, cmp a b = .lt → cmp b c = .lt → cmp a c = .lt)
    (hGtLt : ∀ a b : κ, cmp a b = .gt → cmp b a = .lt) (p : κ) :
    ∀ (ws : List κ) (init : List (κ × Nat)), KeysSorted cmp init →
      (alookup cmp p (ws.foldl (fun acc w => abump cmp w acc) init)).getD 0
        = (alookup cmp p init).getD 0 + ws.count p := by
  intro ws
  induction ws with
  | nil => intro init _; simp
  | cons w ws ih =>
    intro init h
    rw [List.foldl_cons, ih _ (abump_sorted hTrans hGtLt w h)]
    by_cases hp : p = w
    · subst hp
      rw [abump_alookup_self hEq hTrans p h, List.count_cons_self]
      simp
      omega
    · rw [abump_alookup_ne hEq hp, List.count_cons_of_ne hp]

theorem foldl_abump_none_iff {κ : Type} {cmp : κ → κ → Ordering}
    (hEq : ∀ a b : κ, cmp a b = .eq ↔ a = b)
    (hTrans : ∀ a b c : κ, cmp a b = .lt → cmp b c = .lt → cmp a c = .lt)
    (hGtLt : ∀ a b : κ, cmp a b = .gt → cmp b a = .lt) (p : κ) :
    ∀ (ws : List κ) (init : List (κ × Nat)), KeysSorted cmp init →
      (alookup cmp p (ws.foldl (fun acc w => abump cmp w acc) init) = none
        ↔ alookup cmp p init = none ∧ p ∉ ws) := by
  intro ws
  induction ws with
  | nil => intro init _; simp
  | cons w ws ih =>
    intro init h
    rw [List.foldl_cons, ih _ (abump_sorted hTrans hGtLt w h)]
    by_cases hp : p = w
    · subst hp
      rw [abump_alookup_self hEq hTrans p h]
      simp
    · rw [abump_alookup_ne hEq hp]
      simp [hp]

theorem buildmap_lookup_iff {κ : Type} [BEq κ] [LawfulBEq κ] {cmp : κ → κ → Ordering}
    (hEq : ∀ a b : κ, cmp a b = .eq ↔ a = b)
    (hTrans : ∀ a b c : κ, cmp a b = .lt → cmp b c = .lt → cmp a c = .lt)
    (hGtLt : ∀ a b : κ, cmp a b = .gt → cmp b a = .lt) (p : κ) (c : Nat) (ws : List κ) :
    alookup cmp p (ws.foldl (fun acc w => abump cmp w acc) []) = some c
      ↔ p ∈ ws ∧ c = ws.count p := by
  have hs0 : KeysSorted cmp ([] : List (κ × Nat)) := List.Pairwise.nil
  constructor
  · intro h
    have hmem : p ∈ ws := by
      by_contra hnot
      rw [(foldl_abump_none_iff hEq hTrans hGtLt p ws [] hs0).2 ⟨rfl, hnot⟩] at h
      exact Option.noConfusion h
    have hg := foldl_abump_getD hEq hTrans hGtLt p ws [] hs0
    rw [h] at hg
    simp [alookup] at hg
    exact ⟨hmem, hg⟩
  · rintro ⟨hmem, rfl⟩
    have hg := foldl_abump_getD hEq hTrans hGtLt p ws [] hs0
    cases h : alookup cmp p (ws.foldl (fun acc w => abump cmp w acc) []) with
    | none =>
      exact absurd ((foldl_abump_none_iff hEq hTrans hGtLt p ws [] hs0).1 h).2 (by simp [hmem])
    | some x =>
      rw [h] at hg
      simp [alookup] at hg
      rw [hg]

theorem abump_sum {κ : Type} (cmp : κ → κ → Ordering) (k : κ) :
    ∀ l : List (κ × Nat),
      ((abump cmp k l).map (fun e => e.2)).sum = (l.map (fun e => e.2)).sum + 1 := by
  intro l
  induction l with
  | nil => rfl
  | cons hd t ih =>
    rcases hd with ⟨k0, v⟩
    cases hc : cmp k k0 <;> rw [abump, hc] <;> simp [ih] <;> omega

theorem foldl_abump_sum {κ : Type} (cmp : κ → κ → Ordering) :
    ∀ (ws : List κ) (init : List (κ × Nat)),
      (((ws.foldl (fun acc w => abump cmp w acc) init)).map (fun e => e.2)).sum
        = (init.map (fun e => e.2)).sum + ws.length := by
  intro ws
  induction ws with
  | nil => intro init; rfl
  | cons w ws ih =>
    intro init
    rw [List.foldl_cons, ih, abump_sum]
    simp
    omega

end QuantumPack

namespace QuantumPack

/-- Claim C6: the frequency table (modelled from the spec, since the
per-byte AdaptiveDictionary that compress uses is absent from the sources)
maps each byte value to its occurrence count in the buffer it was built
from, and the counts sum to that buffer's length. In compress the Huffman
tree is built from exactly this table over the preprocessed stream, so the
invariant holds at that moment. -/
theorem claim_c6_frequency_table (data : List Nat) :
    ((adaptive_dictionary_update data).map (fun e => e.2)).sum = data.length ∧
      ∀ b : Nat, (alookup compare b (adaptive_dictionary_update data)).getD 0
        = data.count b := by
  constructor
  · have h := foldl_abump_sum compare data []
    simpa [adaptive_dictionary_update] using h
  · intro b
    have h := foldl_abump_getD natCmpEq natCmpLtTrans natCmpGtLt b data [] List.Pairwise.nil
    simpa [adaptive_dictionary_update, alookup] using h

end QuantumPack

namespace QuantumPack

theorem windowsList_one : ∀ l : List Nat, windowsList 1 l = l.map (fun b => [b]) := by
  intro l
  induction l with
  | nil => rfl
  | cons a t ih =>
    show (List.range (t.length + 1 + 1 - 1)).map (fun i => ((a :: t).drop i).take 1)
        = [a] :: t.map (fun b => [b])
    have h1 : t.length + 1 + 1 - 1 = t.length + 1 := rfl
    rw [h1, List.range_succ_eq_map, List.map_cons, List.map_map]
    congr 1

theorem embedded_eq_spec (d : List Nat) : ∀ m : Nat, 1 ≤ m →
    embeddedAll d m = specAll d m := by
  intro m hm
  obtain ⟨k, rfl⟩ : ∃ k, m = k + 1 := ⟨m - 1, by omega⟩
  rw [specAll, List.range'_succ, List.flatMap_cons, embeddedAll, windowsList_one]
  rfl

theorem mem_survivors_iff (d : List Nat) (m : Nat) (hm : 1 ≤ m) (p : List Nat) (c : Nat) :
    ((p, c) ∈ (buildFreqMap (embeddedAll d m)).filter (fun pc => 1 < pc.2)
      ↔ (c = (specAll d m).count p ∧ 1 < c)) := by
  have hsorted : KeysSorted compareList
      ((embeddedAll d m).foldl (fun acc w => abump compareList w acc) []) :=
    foldl_abump_sorted compareList_lt_trans clGtLt _ _ List.Pairwise.nil
  rw [List.mem_filter, buildFreqMap, sorted_mem_iff_alookup clEq p c hsorted,
    buildmap_lookup_iff clEq compareList_lt_trans clGtLt p c (embeddedAll d m),
    embedded_eq_spec d m hm]
  constructor
  · rintro ⟨⟨hmem, rfl⟩, hlt⟩
    simp at hlt
    exact ⟨rfl, hlt⟩
  · rintro ⟨rfl, hlt⟩
    have hpos : 0 < (specAll d m).count p := by omega
    exact ⟨⟨List.count_pos_iff.1 hpos, rfl⟩, by simpa using hlt⟩

theorem mem_spec_survivors_iff (d : List Nat) (m : Nat) (p : List Nat) (c : Nat) :
    ((p, c) ∈ ((specAll d m).dedup.map
        (fun q => (q, (specAll d m).count q))).filter (fun pc => 1 < pc.2)
      ↔ (c = (specAll d m).count p ∧ 1 < c)) := by
  rw [List.mem_filter]
  constructor
  · rintro ⟨hmem, hlt⟩
    rcases List.mem_map.1 hmem with ⟨q, hq, he⟩
    have hpq : q = p := congrArg Prod.fst he
    subst hpq
    have hc : (specAll d m).count q = c := congrArg Prod.snd he
    exact ⟨hc.symm, by simpa using hlt⟩
  · rintro ⟨rfl, hlt⟩
    refine ⟨List.mem_map.2 ⟨p, ?_, rfl⟩, by simpa using hlt⟩
    rw [List.mem_dedup]
    exact List.count_pos_iff.1 (by omega)

/-- Claim C7: identify_patterns agrees with the specification's description
of pattern discovery: the same window counting over lengths 1 up to the max
pattern length, the same discard of frequencies at most 1, the same
descending-frequency then ascending-lexicographic sort, the same sequential
codes from 1 for at most the top 254 candidates, and the same recorded
frequencies. -/
theorem claim_c7_identify_patterns (d : List Nat) (m : Nat) (hm : 1 ≤ m) :
    identify_patterns d m = identify_patterns_spec d m := by
  have hE : List.Nodup ((buildFreqMap (embeddedAll d m)).filter
      (fun pc : List Nat × Nat => 1 < pc.2)) := by
    refine List.Nodup.filter _ ?_
    exact sorted_nodup clEq
      (foldl_abump_sorted compareList_lt_trans clGtLt _ _ List.Pairwise.nil)
  have hinj : Function.Injective (fun q : List Nat => (q, (specAll d m).count q)) :=
    fun a b h => congrArg Prod.fst h
  have hS : List.Nodup (((specAll d m).dedup.map
      (fun q => (q, (specAll d m).count q))).filter (fun pc : List Nat × Nat => 1 < pc.2)) :=
    List.Nodup.filter _ ((List.nodup_dedup _).map hinj)
  have hperm : List.Perm ((buildFreqMap (embeddedAll d m)).filter
        (fun pc : List Nat × Nat => 1 < pc.2))
      (((specAll d m).dedup.map (fun q => (q, (specAll d m).count q))).filter
        (fun pc : List Nat × Nat => 1 < pc.2)) := by
    rw [List.perm_ext_iff_of_nodup hE hS]
    rintro ⟨p, c⟩
    rw [mem_survivors_iff d m hm p c, mem_spec_survivors_iff d m p c]
  have hsorteq :
      List.insertionSort patLe ((buildFreqMap (embeddedAll d m)).filter
          (fun pc : List Nat × Nat => 1 < pc.2))
        = List.insertionSort patLe (((specAll d m).dedup.map
            (fun q => (q, (specAll d m).count q))).filter
          (fun pc : List Nat × Nat => 1 < pc.2)) := by
    haveI : IsTotal (List Nat × Nat) patLe := ⟨patLe_total⟩
    haveI : IsTrans (List Nat × Nat) patLe := ⟨patLe_trans⟩
    haveI : IsAntisymm (List Nat × Nat) patLe := ⟨patLe_antisymm⟩
    exact List.eq_of_perm_of_sorted
      (((List.perm_insertionSort patLe _).trans hperm).trans
        (List.perm_insertionSort patLe _).symm)
      (List.sorted_insertionSort patLe _) (List.sorted_insertionSort patLe _)
  unfold identify_patterns identify_patterns_spec
  rw [hsorteq]

/-- Claim C7 witness: the refinement theorem applied to the concrete buffer
97, 97, 97 with max pattern length 2. -/
theorem claim_c7_witness :
    identify_patterns [97, 97, 97] 2 = identify_patterns_spec [97, 97, 97] 2 :=
  claim_c7_identify_patterns [97, 97, 97] 2 (by decide)

end QuantumPack

namespace QuantumPack

theorem assignCodes_pm_mem :
    ∀ (l : List (List Nat × Nat)) (next : Nat) (T : PatternTables) (p : List Nat) (c : Nat),
      (p, c) ∈ (assignCodes next l T).patternMap →
        (p, c) ∈ T.patternMap ∨ (next ≤ c ∧ c < next + l.length) := by
  intro l
  induction l with
  | nil => intro next T p c h; exact Or.inl h
  | cons hd rest ih =>
    intro next T p c h
    rcases hd with ⟨q, f⟩
    rw [assignCodes] at h
    rcases ih (next + 1) _ p c h with h2 | h2
    · rcases ainsert_mem compareList q next T.patternMap p c h2 with h3 | h3
      · exact Or.inl h3
      · refine Or.inr ?_
        rw [h3.2]
        simp only [List.length_cons]
        omega
    · refine Or.inr ?_
      simp only [List.length_cons]
      omega

theorem assignCodes_rpm_mem :
    ∀ (l : List (List Nat × Nat)) (next : Nat) (T : PatternTables) (c : Nat) (p : List Nat),
      (c, p) ∈ (assignCodes next l T).reversePatternMap →
        (c, p) ∈ T.reversePatternMap ∨ (next ≤ c ∧ c < next + l.length) := by
  intro l
  induction l with
  | nil => intro next T c p h; exact Or.inl h
  | cons hd rest ih =>
    intro next T c p h
    rcases hd with ⟨q, f⟩
    rw [assignCodes] at h
    rcases ih (next + 1) _ c p h with h2 | h2
    · rcases ainsert_mem compare next q T.reversePatternMap c p h2 with h3 | h3
      · exact Or.inl h3
      · refine Or.inr ?_
        rw [h3.1]
        simp only [List.length_cons]
        omega
    · refine Or.inr ?_
      simp only [List.length_cons]
      omega

end QuantumPack

namespace QuantumPack

/-- Claim C8: every code stored by identify_patterns in the forward pattern
map lies between 1 and 254, so the cast of the u16 code to one u8 byte in
transform_data and encode_code keeps the code unchanged (remainder by 256 is
the identity) and an emitted code byte never equals the 255 escape marker;
the codes of the reverse map obey the same bounds. -/
theorem claim_c8_code_range (d : List Nat) (m : Nat) :
    (∀ p c, (p, c) ∈ (identify_patterns d m).patternMap →
        1 ≤ c ∧ c ≤ 254 ∧ c % 256 = c ∧ c % 256 ≠ 255 ∧
          ∀ f, encode_code c f = if 100 < f then [c] else [255, c]) ∧
      ∀ c p, (c, p) ∈ (identify_patterns d m).reversePatternMap → 1 ≤ c ∧ c ≤ 254 := by
  constructor
  · intro p c h
    rw [identify_patterns] at h
    rcases assignCodes_pm_mem _ 1 emptyTables p c h with h2 | h2
    · simp [emptyTables] at h2
    · have hlen := List.length_take_le 254
        (List.insertionSort patLe ((buildFreqMap (embeddedAll d m)).filter
          (fun pc => 1 < pc.2)))
      have hc : 1 ≤ c ∧ c ≤ 254 := by omega
      have hmod : c % 256 = c := Nat.mod_eq_of_lt (by omega)
      refine ⟨hc.1, hc.2, hmod, by omega, ?_⟩
      intro f
      simp only [encode_code, hmod]
  · intro c p h
    rw [identify_patterns] at h
    rcases assignCodes_rpm_mem _ 1 emptyTables c p h with h2 | h2
    · simp [emptyTables] at h2
    · have hlen := List.length_take_le 254
        (List.insertionSort patLe ((buildFreqMap (embeddedAll d m)).filter
          (fun pc => 1 < pc.2)))
      omega

/-- Claim C8 witness: the bounds instantiated at the concrete buffer
97, 97, 97 with max pattern length 2, whose pattern map assigns code 1 to
the single-byte pattern 97. -/
theorem claim_c8_witness :
    1 ≤ 1 ∧ 1 ≤ 254 ∧ 1 % 256 = 1 ∧ 1 % 256 ≠ 255 ∧
      encode_code 1 5 = if 100 < 5 then [1] else [255, 1] := by
  have h := (claim_c8_code_range [97, 97, 97] 2).1 [97] 1 (by decide)
  exact ⟨h.1, h.2.1, h.2.2.1, h.2.2.2.1, h.2.2.2.2 5⟩

theorem code_bits_cons (codes : List (Nat × List Nat)) (b : Nat) (t : List Nat) :
    code_bits codes (b :: t)
      = (match alookup compare b codes with | some c => c | none => [])
          ++ code_bits codes t := by
  simp [code_bits]

theorem code_bits_filter (codes : List (Nat × List Nat)) :
    ∀ data : List Nat,
      code_bits codes (data.filter (fun b => (alookup compare b codes).isSome))
        = code_bits codes data := by
  intro data
  induction data with
  | nil => rfl
  | cons b t ih =>
    cases h : alookup compare b codes with
    | none => simp [List.filter_cons, code_bits_cons, h, ih]
    | some c => simp [List.filter_cons, code_bits_cons, h, ih]

/-- Claim C9: huffman_encode silently skips every input byte that has no
entry in the code map: encoding a buffer equals encoding the buffer with all
unmapped bytes removed, so such bytes contribute no bits, raise no error,
and are not determined by the payload. -/
theorem claim_c9_skip_unmapped (data : List Nat) (codes : List (Nat × List Nat)) :
    huffman_encode data codes
      = huffman_encode (data.filter (fun b => (alookup compare b codes).isSome)) codes := by
  simp only [huffman_encode]
  rw [code_bits_filter]

end QuantumPack

namespace QuantumPack

theorem leftover_length : ∀ bs : List Nat, (leftover bs).length = bs.length % 8
  | [] => rfl
  | [_] => rfl
  | [_, _] => rfl
  | [_, _, _] => rfl
  | [_, _, _, _] => rfl
  | [_, _, _, _, _] => rfl
  | [_, _, _, _, _, _] => rfl
  | [_, _, _, _, _, _, _] => rfl
  | b0 :: b1 :: b2 :: b3 :: b4 :: b5 :: b6 :: b7 :: rest => by
    have h1 : leftover (b0 :: b1 :: b2 :: b3 :: b4 :: b5 :: b6 :: b7 :: rest)
        = leftover rest := rfl
    rw [h1, leftover_length rest]
    simp only [List.length_cons]
    omega

theorem huffman_decode_eq (l : List Nat) (tree : HuffmanNode) (h : l ≠ []) :
    huffman_decode l tree = decodeRun tree tree (decode_bits l.dropLast (l.getLastD 0)) := by
  cases l with
  | nil => exact absurd rfl h
  | cons a t => rfl

theorem decode_bits_split : ∀ (body : List Nat) (t : Nat),
    decode_bits body t
      = (body.dropLast.flatMap (fun b => byteBits b 8))
          ++ body.getLast?.elim [] (fun lb => byteBits lb t)
  | [], t => by simp [decode_bits]
  | [b], t => by simp [decode_bits]
  | b :: c :: rest, t => by
    have h1 : decode_bits (b :: c :: rest) t = byteBits b 8 ++ decode_bits (c :: rest) t := rfl
    have h2 : (b :: c :: rest).dropLast = b :: (c :: rest).dropLast := rfl
    rw [h1, decode_bits_split (c :: rest) t, h2, List.flatMap_cons,
      List.getLast?_cons_cons, List.append_assoc]

/-- Claim C5 as amended: huffman_encode is the packed full groups, then the
shifted partial group when one exists, then exactly one trailer byte whose
value is trailer_value of the bit count; for a nonempty bit sequence the
trailer lies in 1..8, equals the number of meaningful bits of the final
packed group, and is 8 exactly when the bit count is a multiple of 8; for an
empty bit sequence the trailer is 0. huffman_decode reads the final payload
byte as the trailer, gives the second-to-last byte that many meaningful
bits, and every earlier byte 8. -/
theorem claim_c5_amended (data : List Nat) (codes : List (Nat × List Nat)) :
    (huffman_encode data codes
        = (packFull (code_bits codes data)
            ++ (if leftover (code_bits codes data) = [] then []
                else [lastByteVal (leftover (code_bits codes data))]))
          ++ [trailer_value (code_bits codes data).length])
      ∧ (code_bits codes data ≠ [] →
          1 ≤ trailer_value (code_bits codes data).length
            ∧ trailer_value (code_bits codes data).length ≤ 8
            ∧ trailer_value (code_bits codes data).length
                = (if leftover (code_bits codes data) = [] then 8
                   else (leftover (code_bits codes data)).length)
            ∧ ((code_bits codes data).length % 8 = 0
                ↔ trailer_value (code_bits codes data).length = 8))
      ∧ (code_bits codes data = [] →
          trailer_value (code_bits codes data).length = 0)
      ∧ ∀ (body : List Nat) (t : Nat) (tree : HuffmanNode),
          huffman_decode (body ++ [t]) tree
            = decodeRun tree tree
                ((body.dropLast.flatMap (fun b => byteBits b 8))
                  ++ body.getLast?.elim [] (fun lb => byteBits lb t)) := by
  have hl := leftover_length (code_bits codes data)
  refine ⟨?_, ?_, ?_, ?_⟩
  · simp only [huffman_encode]
    by_cases h0 : code_bits codes data = []
    · rw [if_neg (by simp [h0])]
      rw [h0]
      simp [trailer_value, packFull, leftover]
    · have hlen0 : (code_bits codes data).length ≠ 0 := by
        simpa [List.length_eq_zero] using h0
      by_cases h8 : (code_bits codes data).length % 8 = 0
      · have hleft : leftover (code_bits codes data) = [] := by
          rw [← List.length_eq_zero, hl, h8]
        rw [if_pos ⟨h8, h0⟩, if_pos hleft, if_pos hleft, trailer_value, if_neg hlen0,
          if_pos h8]
        simp
      · have hleft : leftover (code_bits codes data) ≠ [] := by
          intro he
          apply h8
          rw [← hl, he]
          rfl
        rw [if_neg (by intro hc; exact h8 hc.1), if_neg hleft, if_neg hleft,
          trailer_value, if_neg hlen0, if_neg h8]
  · intro h0
    have hlen0 : (code_bits codes data).length ≠ 0 := by
      simpa [List.length_eq_zero] using h0
    rw [trailer_value, if_neg hlen0]
    by_cases h8 : (code_bits codes data).length % 8 = 0
    · have hleft : leftover (code_bits codes data) = [] := by
        rw [← List.length_eq_zero, hl, h8]
      rw [if_pos h8, if_pos hleft]
      refine ⟨by omega, by omega, rfl, by simp [h8]⟩
    · have hleft : leftover (code_bits codes data) ≠ [] := by
        intro he
        apply h8
        rw [← hl, he]
        rfl
      have hm : (code_bits codes data).length % 8 < 8 := Nat.mod_lt _ (by omega)
      rw [if_neg h8, if_neg hleft]
      refine ⟨by omega, by omega, hl.symm, ?_⟩
      constructor
      · intro hh
        exact absurd hh h8
      · intro hh
        omega
  · intro h0
    rw [h0]
    rfl
  · intro body t tree
    rw [huffman_decode_eq _ tree (by simp), List.dropLast_concat, List.getLastD_concat,
      decode_bits_split]

/-- Claim C5 witness: the amended theorem at the one-byte buffer 0 with the
three-bit code 1,0,1 (nonempty bit sequence, trailer 3), and at the empty
buffer with the empty code map (empty bit sequence, trailer 0). -/
theorem claim_c5_witness :
    code_bits [(0, [1, 0, 1])] [0] ≠ [] ∧
      (1 ≤ trailer_value (code_bits [(0, [1, 0, 1])] [0]).length
        ∧ trailer_value (code_bits [(0, [1, 0, 1])] [0]).length ≤ 8
        ∧ trailer_value (code_bits [(0, [1, 0, 1])] [0]).length
            = (if leftover (code_bits [(0, [1, 0, 1])] [0]) = [] then 8
               else (leftover (code_bits [(0, [1, 0, 1])] [0])).length)
        ∧ ((code_bits [(0, [1, 0, 1])] [0]).length % 8 = 0
            ↔ trailer_value (code_bits [(0, [1, 0, 1])] [0]).length = 8)) ∧
      trailer_value (code_bits ([] : List (Nat × List Nat)) ([] : List Nat)).length = 0 :=
  ⟨by decide, (claim_c5_amended [0] [(0, [1, 0, 1])]).2.1 (by decide),
    (claim_c5_amended [] []).2.2.1 (by decide)⟩

end QuantumPack
